import Mathlib

/-!
Shallow embedding of the Markdown ⇄ TipTap conversion core of the openmdx
editor.  Strings are modelled as `List Char` (JS strings are sequences of
code units; every input considered here is plain ASCII text).  Each
definition is translated from a named function of the source:

* `splitTicks`        — the effect of `text.split('```')` (markdownToTipTap.ts)
* `tickPositions`     — the `indexOf('```')` scanning loop computing `positions`
* `extractMermaidBlocks`, `detectDiagramType`, `hasMarkdownSyntax`,
  `convertMarkdownToHTML`, `convertMarkdownToTipTapNodes` — markdownToTipTap.ts
* `serializeNode` / `serializeList` — `domToMarkdown` (copy path)
* `processNode` / `processList`     — `htmlToMarkdown` (save path, useTabs.ts)
* `handlePaste`       — ClipboardTextParser.ts

External collaborators (the `marked` library, ProseMirror's DOM parser and
serializer) are taken as abstract function parameters.
-/

/-- Backtick character (code point 96), written via `Char.ofNat`. -/
def tick : Char := Char.ofNat 96

/-- Model of `text.split('```')`: splits a character list on the
triple-backtick delimiter, consuming leftmost non-overlapping occurrences
first; a list shorter than the delimiter is a single part. -/
def splitTicks : List Char → List (List Char)
  | c1 :: c2 :: c3 :: rest =>
    if c1 = tick ∧ c2 = tick ∧ c3 = tick then
      [] :: splitTicks rest
    else
      match splitTicks (c2 :: c3 :: rest) with
      | [] => [[c1]]
      | p :: ps => (c1 :: p) :: ps
  | l => [l]

/-- Model of the `positions` loop of `extractMermaidBlocks`: the loop
repeatedly calls `text.indexOf('```', searchPos)` and advances past each
occurrence, recording the offset of every leftmost non-overlapping
occurrence of the delimiter. -/
def tickPosAux : Nat → List Char → List Nat
  | off, c1 :: c2 :: c3 :: rest =>
    if c1 = tick ∧ c2 = tick ∧ c3 = tick then
      off :: tickPosAux (off + 3) rest
    else
      tickPosAux (off + 1) (c2 :: c3 :: rest)
  | _, _ => []

def tickPositions (text : List Char) : List Nat := tickPosAux 0 text

/-- Whitespace in the sense of JavaScript's `trim` / `\s` (the code points
that actually occur in this code base: space, tab, LF, CR, VT, FF). -/
def isJsWs (c : Char) : Bool :=
  c = ' ' || c = '\t' || c = '\n' || c = '\r' || c = Char.ofNat 11 || c = Char.ofNat 12

/-- JavaScript `String.prototype.trim`. -/
def jsTrim (l : List Char) : List Char :=
  ((l.dropWhile isJsWs).reverse.dropWhile isJsWs).reverse

/-- Model of `s.split('\n')`. -/
def splitNL : List Char → List (List Char)
  | [] => [[]]
  | c :: rest =>
    if c = '\n' then
      [] :: splitNL rest
    else
      match splitNL rest with
      | [] => [[c]]
      | p :: ps => (c :: p) :: ps

/-- Model of `parts.join('\n')`. -/
def joinNL : List (List Char) → List Char
  | [] => []
  | [p] => p
  | p :: q :: ps => p ++ '\n' :: joinNL (q :: ps)

/-- Model of `content.trim().split('\n')[0].trim()` in `extractMermaidBlocks`. -/
def firstLineAfterTrim (content : List Char) : List Char :=
  jsTrim ((jsTrim content).takeWhile (fun c => c ≠ '\n'))

/-- Test `firstLine === 'mermaid'` of `extractMermaidBlocks`. -/
def isMermaidTagged (content : List Char) : Bool :=
  firstLineAfterTrim content == "mermaid".data

/-- Model of `content.split('\n').slice(1).join('\n').trim()`. -/
def mermaidContentOf (content : List Char) : List Char :=
  jsTrim (joinNL ((splitNL content).drop 1))

/-- Suffixes of the text that begin at a line start (position 0 or the
position right after a newline): the places where a `^`-anchored pattern
with the `m` flag may match. -/
def lineStartsAux : List Char → List (List Char)
  | [] => []
  | c :: rest =>
    if c = '\n' then rest :: lineStartsAux rest else lineStartsAux rest

def lineStarts (s : List Char) : List (List Char) := s :: lineStartsAux s

/-- Case-insensitive literal match at the start of a suffix (the `i` flag). -/
def startsWithCI (p : String) (s : List Char) : Bool :=
  (s.take p.data.length).map Char.toLower == p.data.map Char.toLower

/-- Pattern `/^kw/im` of `detectDiagramType`: some line starts with the
keyword, case-insensitively. -/
def reSimple (kw : String) (s : List Char) : Bool :=
  (lineStarts s).any (startsWithCI kw)

/-- Pattern `/^graph\s+(?:TD|LR|RL|BT)/im`. -/
def reGraphDir (s : List Char) : Bool :=
  (lineStarts s).any fun suf =>
    startsWithCI "graph" suf &&
    (match (suf.drop 5).head? with
     | some c => isJsWs c
     | none => false) &&
    (let r2 := (suf.drop 5).dropWhile isJsWs
     startsWithCI "td" r2 || startsWithCI "lr" r2 ||
     startsWithCI "rl" r2 || startsWithCI "bt" r2)

/-- Pattern `/^graph\s+/im`. -/
def reGraphWs (s : List Char) : Bool :=
  (lineStarts s).any fun suf =>
    startsWithCI "graph" suf &&
    (match (suf.drop 5).head? with
     | some c => isJsWs c
     | none => false)

/-- The ordered pattern table `typePatterns` of `detectDiagramType`. -/
def typePatterns : List ((List Char → Bool) × String) :=
  [ (reGraphDir, "flowchart"),
    (reGraphWs, "flowchart"),
    (reSimple "flowchart", "flowchart"),
    (reSimple "sequenceDiagram", "sequence"),
    (reSimple "classDiagram", "class"),
    (reSimple "stateDiagram", "state"),
    (reSimple "gantt", "gantt"),
    (reSimple "pie", "pie"),
    (reSimple "mindmap", "mindmap"),
    (reSimple "erDiagram", "er"),
    (reSimple "gitGraph", "git"),
    (reSimple "timeline", "timeline"),
    (reSimple "journey", "journey"),
    (reSimple "quadrantChart", "quadrant"),
    (reSimple "C4Context", "c4"),
    (reSimple "requirementDiagram", "requirement") ]

/-- Model of `detectDiagramType` (markdownToTipTap.ts): the patterns are
tried in order, the first match wins, the fallback is `'flowchart'`. -/
def detectDiagramType (content : List Char) : String :=
  match typePatterns.find? (fun pr => pr.1 content) with
  | some pr => pr.2
  | none => "flowchart"

/-- One detected mermaid block, as in the `MermaidBlock` interface of
markdownToTipTap.ts. -/
structure MermaidBlock where
  content : List Char
  startIndex : Nat
  endIndex : Nat
  diagramType : String
deriving DecidableEq, Repr

/-- Body of the scanning loop of `extractMermaidBlocks`: the JS loop runs
`i` from `0` to `parts.length - 2` with `content = parts[i + 1]`,
`startIndex = positions[i]` and `endIndex = positions[i + 1] + 3` when
`positions[i + 1]` exists, else `text.length`; here the two lists walked in
lockstep are `parts.drop 1` and `positions`. -/
def extractAux (textLen : Nat) : List (List Char) → List Nat → List MermaidBlock
  | content :: rest, pos :: restPos =>
    (if isMermaidTagged content then
      [{ content := mermaidContentOf content
         startIndex := pos
         endIndex :=
           match restPos with
           | p2 :: _ => p2 + 3
           | [] => textLen
         diagramType := detectDiagramType (mermaidContentOf content) }]
     else []) ++ extractAux textLen rest restPos
  | _, _ => []

/-- Model of `extractMermaidBlocks` (markdownToTipTap.ts). -/
def extractMermaidBlocks (text : List Char) : List MermaidBlock :=
  extractAux text.length ((splitTicks text).drop 1) (tickPositions text)

/-- Triple backtick as a character list. -/
def ticksL : List Char := [tick, tick, tick]

/-- Leading-whitespace stripper used by the line-anchored block patterns. -/
def afterWs (l : List Char) : List Char := l.dropWhile isJsWs

/-- Per-line test of the regex `/^#{1,6}\s/` (anchored at the line start). -/
def isHashHeadingLine (l : List Char) : Bool :=
  let k := (l.takeWhile (fun c => c = '#')).length
  1 ≤ k && k ≤ 6 &&
    (match (l.drop k).head? with
     | some c => isJsWs c
     | none => false)

/-- Per-line test of `/^\s*[-*+]\s/`. -/
def isBulletLine (l : List Char) : Bool :=
  match afterWs l with
  | c :: d :: _ => (c = '-' || c = '*' || c = '+') && isJsWs d
  | _ => false

/-- Per-line test of `/^\s*\d+\.\s/`. -/
def isOrderedLine (l : List Char) : Bool :=
  let r := afterWs l
  let ds := r.takeWhile Char.isDigit
  !ds.isEmpty &&
    (match r.drop ds.length with
     | '.' :: d :: _ => isJsWs d
     | _ => false)

/-- Per-line test of `/^\s*>\s/`. -/
def isQuoteLine (l : List Char) : Bool :=
  match afterWs l with
  | c :: d :: _ => c = '>' && isJsWs d
  | _ => false

/-- Per-line test of `/^\s*```/`. -/
def isFenceLine (l : List Char) : Bool :=
  (afterWs l).take 3 == ticksL

/-- Per-line test of `/^\s*\|.*\|/`. -/
def isTableLine (l : List Char) : Bool :=
  match afterWs l with
  | '|' :: rest => rest.contains '|'
  | _ => false

/-- The `hasBlockSyntax` battery shared by `convertMarkdownToHTML`
(markdownToTipTap.ts) and the paste handler (ClipboardTextParser.ts). -/
def blockSyntaxLine (l : List Char) : Bool :=
  isHashHeadingLine l || isBulletLine l || isOrderedLine l ||
  isQuoteLine l || isFenceLine l || isTableLine l

/-- Model of `convertMarkdownToHTML`: the external `marked` library is the
abstract parameter; the function splits off blank lines, and converts
line-by-line when the text is multi-line without block-level syntax. -/
def convertMarkdownToHTML (marked : List Char → List Char)
    (markdownText : List Char) : List Char :=
  let lines := (splitNL markdownText).filter (fun l => !(jsTrim l).isEmpty)
  let hasMultipleLines := decide (1 < lines.length)
  let hasBlockSyntax := lines.any blockSyntaxLine
  if hasMultipleLines && !hasBlockSyntax then
    (lines.map marked).flatten
  else
    marked markdownText

/-- Pattern `/^#{1,6}\s/m`: at some line start, one to six hash marks
followed by a whitespace character (which may itself be a newline). -/
def sniffHeading (t : List Char) : Bool :=
  (lineStarts t).any fun suf =>
    let k := (suf.takeWhile (fun c => c = '#')).length
    1 ≤ k && k ≤ 6 &&
      (match (suf.drop k).head? with
       | some c => isJsWs c
       | none => false)

/-- Match of `/\*\*[^*]+\*\*/` at the head of a suffix. -/
def boldAt : List Char → Bool
  | '*' :: '*' :: rest =>
    let mid := rest.takeWhile (fun c => c ≠ '*')
    !mid.isEmpty && ((rest.drop mid.length).take 2 == ['*', '*'])
  | _ => false

def sniffBold (t : List Char) : Bool := t.tails.any boldAt

/-- Match of `/\*[^*]+\*/` at the head of a suffix. -/
def italAt : List Char → Bool
  | '*' :: rest =>
    let mid := rest.takeWhile (fun c => c ≠ '*')
    !mid.isEmpty && ((rest.drop mid.length).head? == some '*')
  | _ => false

def sniffItalic (t : List Char) : Bool := t.tails.any italAt

/-- Pattern `/^[-*+]\s/m`. -/
def sniffBullet (t : List Char) : Bool :=
  (lineStarts t).any fun suf =>
    match suf with
    | c :: d :: _ => (c = '-' || c = '*' || c = '+') && isJsWs d
    | _ => false

/-- Pattern `/^\d+\.\s/m`. -/
def sniffOrdered (t : List Char) : Bool :=
  (lineStarts t).any fun suf =>
    let ds := suf.takeWhile Char.isDigit
    !ds.isEmpty &&
      (match suf.drop ds.length with
       | c :: d :: _ => c = '.' && isJsWs d
       | _ => false)

/-- Pattern `/^>\s/m`. -/
def sniffQuote (t : List Char) : Bool :=
  (lineStarts t).any fun suf =>
    match suf with
    | c :: d :: _ => c = '>' && isJsWs d
    | _ => false

/-- Match of an inline code span at the head of a suffix. -/
def codeAt (l : List Char) : Bool :=
  match l with
  | c :: rest =>
    c = tick &&
      (let mid := rest.takeWhile (fun d => d ≠ tick)
       !mid.isEmpty && ((rest.drop mid.length).head? == some tick))
  | _ => false

def sniffInlineCode (t : List Char) : Bool := t.tails.any codeAt

/-- Pattern `/^```/m`. -/
def sniffFence (t : List Char) : Bool :=
  (lineStarts t).any fun suf => suf.take 3 == ticksL

/-- Match of `/\[.*\]\(.*\)/` at the head of a suffix: a bracketed span,
then a parenthesised span, all on one line (`.` does not match newlines). -/
def linkAt : List Char → Bool
  | '[' :: rest =>
    let ln := rest.takeWhile (fun c => c ≠ '\n')
    ln.tails.any fun s => (s.take 2 == [']', '(']) && ((s.drop 2).contains ')')
  | _ => false

def sniffLink (t : List Char) : Bool := t.tails.any linkAt

/-- Pattern `/^\|.*\|/m`. -/
def sniffTable (t : List Char) : Bool :=
  (lineStarts t).any fun suf =>
    match suf with
    | c :: rest => c = '|' && (rest.takeWhile (fun d => d ≠ '\n')).contains '|'
    | _ => false

/-- Model of `hasMarkdownSyntax`, the sniffer duplicated verbatim in
markdownToTipTap.ts and ClipboardTextParser.ts: true when any of the ten
patterns matches anywhere in the text. -/
def hasMarkdownSyntax (t : List Char) : Bool :=
  sniffHeading t || sniffBold t || sniffItalic t || sniffBullet t ||
  sniffOrdered t || sniffQuote t || sniffInlineCode t || sniffFence t ||
  sniffLink t || sniffTable t

/-- A rendered DOM subtree: either a text node or an element with a
(lower-case) tag, attributes and child nodes. -/
inductive Dom where
  | text (s : List Char) : Dom
  | elem (tag : String) (attrs : List (String × String)) (children : List Dom) : Dom
deriving Repr

/-- Attribute lookup, as in `el.getAttribute(name)`. -/
def getAttr (name : String) (attrs : List (String × String)) : Option String :=
  (attrs.find? (fun pr => pr.1 = name)).map (fun pr => pr.2)

/-- The `class` attribute of an element (empty when absent), as `className`. -/
def classOf (attrs : List (String × String)) : List Char :=
  ((getAttr "class" attrs).getD "").data

mutual

/-- Model of `node.textContent`: the concatenated text of the subtree. -/
def textContent : Dom → List Char
  | .text s => s
  | .elem _ _ cs => textContentList cs

def textContentList : List Dom → List Char
  | [] => []
  | d :: ds => textContent d ++ textContentList ds

end

mutual

/-- Descendant elements (self excluded) whose tag satisfies the test, in
document order — the semantics of `el.querySelectorAll` for tag selectors. -/
def descendantsMatching (p : String → Bool) : Dom → List Dom
  | .text _ => []
  | .elem _ _ cs => descendantsMatchingList p cs

def descendantsMatchingList (p : String → Bool) : List Dom → List Dom
  | [] => []
  | d :: ds => descendantsSelf p d ++ descendantsMatchingList p ds

/-- One node of the `querySelectorAll` walk: the node itself when it is a
matching element, followed by its matching descendants. -/
def descendantsSelf (p : String → Bool) : Dom → List Dom
  | .text _ => []
  | .elem t a cs =>
    (if p t then [Dom.elem t a cs] else []) ++ descendantsMatchingList p cs

end

/-- First `code` descendant, as `el.querySelector('code')`. -/
def findCode (cs : List Dom) : Option Dom :=
  (descendantsMatchingList (fun t => t = "code") cs).head?

/-- Word characters of the regex class `\w`. -/
def isWordChar (c : Char) : Bool := c.isAlpha || c.isDigit || c = '_'

/-- Model of `className.match(/language-(\w+)/)?.[1]`: the first capture at
the first position where the whole pattern matches. -/
def findLang : List Char → Option (List Char)
  | [] => none
  | c :: rest =>
    if "language-".data.isPrefixOf (c :: rest) then
      let w := ((c :: rest).drop 9).takeWhile isWordChar
      if w.isEmpty then findLang rest else some w
    else
      findLang rest

/-- Language tag of a `code` element, `'' `when absent. -/
def langOf (codeEl : Dom) : List Char :=
  match codeEl with
  | .elem _ a _ => (findLang (classOf a)).getD []
  | .text _ => []

/-- General `join` with a separator, as `arr.join(sep)`. -/
def joinSep (sep : List Char) : List (List Char) → List Char
  | [] => []
  | [x] => x
  | x :: y :: xs => x ++ sep ++ joinSep sep (y :: xs)

/-- Tag test for `querySelectorAll('td, th')`. -/
def isCellTag (t : String) : Bool := t = "td" || t = "th"

/-- One table row line of `domToMarkdown`. -/
def tableRowLine (row : Dom) : List Char :=
  "| ".data ++
    joinSep " | ".data
      ((descendantsMatching isCellTag row).map (fun c => jsTrim (textContent c))) ++
    " |\n".data

/-- Header separator line of `domToMarkdown` (one `---` per cell). -/
def tableSepLine (row : Dom) : List Char :=
  "| ".data ++
    joinSep " | ".data
      ((descendantsMatching isCellTag row).map (fun _ => "---".data)) ++
    " |\n".data

/-- Table emission of `domToMarkdown`: every `tr` descendant, the first
followed by the separator line, then a blank line. -/
def tableOf (rows : List Dom) : List Char :=
  match rows with
  | [] => ['\n']
  | r0 :: rest =>
    tableRowLine r0 ++ tableSepLine r0 ++ (rest.map tableRowLine).flatten ++ ['\n']

mutual

/-- Model of `domToMarkdown` (MarkdownCopy extension) on one child node of
the element being serialized; `parentTag` is the tag of that element, used
by the `code` case's `el.parentElement?.tagName === 'PRE'` test. -/
def serializeNode (parentTag : String) : Dom → List Char
  | .text s => s
  | .elem tag attrs children =>
    if tag = "h1" then "# ".data ++ textContentList children ++ "\n\n".data
    else if tag = "h2" then "## ".data ++ textContentList children ++ "\n\n".data
    else if tag = "h3" then "### ".data ++ textContentList children ++ "\n\n".data
    else if tag = "h4" then "#### ".data ++ textContentList children ++ "\n\n".data
    else if tag = "h5" then "##### ".data ++ textContentList children ++ "\n\n".data
    else if tag = "h6" then "###### ".data ++ textContentList children ++ "\n\n".data
    else if tag = "strong" ∨ tag = "b" then
      "**".data ++ textContentList children ++ "**".data
    else if tag = "em" ∨ tag = "i" then
      "*".data ++ textContentList children ++ "*".data
    else if tag = "code" then
      let codeText := textContentList children
      if parentTag = "pre" then
        ticksL ++ '\n' :: codeText ++ '\n' :: ticksL ++ "\n\n".data
      else
        tick :: codeText ++ [tick]
    else if tag = "pre" then
      match findCode children with
      | some codeEl =>
        ticksL ++ langOf codeEl ++ '\n' :: textContent codeEl ++ '\n' :: ticksL ++ "\n\n".data
      | none =>
        ticksL ++ '\n' :: textContentList children ++ '\n' :: ticksL ++ "\n\n".data
    else if tag = "blockquote" then
      let quoteContent := jsTrim (serializeList "blockquote" children)
      ((splitNL quoteContent).map (fun ln => "> ".data ++ ln ++ ['\n'])).flatten ++ ['\n']
    else if tag = "ul" then
      ((serializeItemContents children).map (fun c => "- ".data ++ c ++ ['\n'])).flatten ++ ['\n']
    else if tag = "ol" then
      ((serializeItemContents children).enum.map
        (fun pr => (toString (pr.1 + 1)).data ++ ". ".data ++ pr.2 ++ ['\n'])).flatten ++ ['\n']
    else if tag = "li" then
      jsTrim (serializeList "li" children)
    else if tag = "a" then
      "[".data ++ textContentList children ++ "](".data ++
        ((getAttr "href" attrs).getD "").data ++ ")".data
    else if tag = "p" then
      let pContent := jsTrim (serializeList "p" children)
      if pContent.isEmpty then [] else pContent ++ "\n\n".data
    else if tag = "hr" then "---\n\n".data
    else if tag = "br" then ['\n']
    else if tag = "table" then
      tableOf (descendantsMatchingList (fun t => t = "tr") children)
    else
      serializeList tag children

/-- The `element.childNodes.forEach` accumulation of `domToMarkdown`. -/
def serializeList (parentTag : String) : List Dom → List Char
  | [] => []
  | d :: ds => serializeNode parentTag d ++ serializeList parentTag ds

/-- Contents of the direct `li` children (`:scope > li`), each serialized
recursively and trimmed, in order — shared by the `ul` and `ol` cases. -/
def serializeItemContents : List Dom → List (List Char)
  | [] => []
  | .text _ :: ds => serializeItemContents ds
  | .elem t _ lcs :: ds =>
    if t = "li" then jsTrim (serializeList "li" lcs) :: serializeItemContents ds
    else serializeItemContents ds

end

/-- Entry point of the copy path: `domToMarkdown(div)` over the children of
the temporary container div. -/
def domToMarkdown (children : List Dom) : List Char :=
  serializeList "div" children

/-- Table emission of `htmlToMarkdown` (useTabs.ts): row lines joined with
newlines, no header separator, then a blank line. -/
def processTableOf (rows : List Dom) : List Char :=
  joinNL (rows.map (fun row =>
    "| ".data ++
      joinSep " | ".data
        ((descendantsMatching isCellTag row).map (fun c => jsTrim (textContent c))) ++
      " |".data)) ++ "\n\n".data

mutual

/-- Model of `processNode` inside `htmlToMarkdown` (useTabs.ts). -/
def processNode (parentTag : String) : Dom → List Char
  | .text s => s
  | .elem tag attrs children =>
    if tag = "h1" then "# ".data ++ textContentList children ++ "\n\n".data
    else if tag = "h2" then "## ".data ++ textContentList children ++ "\n\n".data
    else if tag = "h3" then "### ".data ++ textContentList children ++ "\n\n".data
    else if tag = "h4" then "#### ".data ++ textContentList children ++ "\n\n".data
    else if tag = "h5" then "##### ".data ++ textContentList children ++ "\n\n".data
    else if tag = "h6" then "###### ".data ++ textContentList children ++ "\n\n".data
    else if tag = "strong" ∨ tag = "b" then
      "**".data ++ textContentList children ++ "**".data
    else if tag = "em" ∨ tag = "i" then
      "*".data ++ textContentList children ++ "*".data
    else if tag = "code" then
      let t := textContentList children
      if parentTag = "pre" then
        ticksL ++ t ++ ticksL ++ "\n\n".data
      else
        tick :: t ++ [tick]
    else if tag = "pre" then
      match findCode children with
      | some codeEl =>
        ticksL ++ langOf codeEl ++ '\n' :: textContent codeEl ++ ticksL ++ "\n\n".data
      | none =>
        ticksL ++ '\n' :: textContentList children ++ ticksL ++ "\n\n".data
    else if tag = "blockquote" then
      let quoteContent := jsTrim (processList "blockquote" children)
      joinNL ((splitNL quoteContent).map (fun ln => "> ".data ++ ln)) ++ "\n\n".data
    else if tag = "ul" then
      joinNL ((processItemContents children).map (fun c => "- ".data ++ c)) ++ "\n\n".data
    else if tag = "ol" then
      joinNL ((processItemContents children).enum.map
        (fun pr => (toString (pr.1 + 1)).data ++ ". ".data ++ pr.2)) ++ "\n\n".data
    else if tag = "li" then
      jsTrim (processList "li" children)
    else if tag = "a" then
      "[".data ++ textContentList children ++ "](".data ++
        ((getAttr "href" attrs).getD "").data ++ ")".data
    else if tag = "p" then
      jsTrim (processList "p" children) ++ "\n\n".data
    else if tag = "hr" then "---\n\n".data
    else if tag = "br" then ['\n']
    else if tag = "table" then
      processTableOf (descendantsMatchingList (fun t => t = "tr") children)
    else
      processList tag children

/-- Accumulation of `processNode` over child nodes. -/
def processList (parentTag : String) : List Dom → List Char
  | [] => []
  | d :: ds => processNode parentTag d ++ processList parentTag ds

/-- Contents of the direct `li` children, trimmed, for the `ul`/`ol` cases. -/
def processItemContents : List Dom → List (List Char)
  | [] => []
  | .text _ :: ds => processItemContents ds
  | .elem t _ lcs :: ds =>
    if t = "li" then jsTrim (processList "li" lcs) :: processItemContents ds
    else processItemContents ds

end

/-- Model of `htmlToMarkdown` (useTabs.ts): process the children of the
container div and trim the result.  Parsing the HTML string into the DOM is
the browser external; the input here is the parsed child list. -/
def htmlToMarkdown (children : List Dom) : List Char :=
  jsTrim (processList "div" children)

/-- A node produced by `convertMarkdownToTipTapNodes`: a `mermaidBlock`
node with its attributes and text content, an empty separator paragraph, or
an opaque node produced by the external standard-converter path (carried
together with the DOM the external `DOMSerializer` renders it to). -/
inductive TipTapNode where
  | mermaidBlock (diagramType viewMode theme : String) (sourceText : List Char) : TipTapNode
  | paragraph : TipTapNode
  | std (dom : Dom) : TipTapNode
deriving Repr

/-- Composite external path `convertMarkdownToHTML` + `div.innerHTML` +
`domParser.parseSlice`: the two abstract steps are the `marked` library and
ProseMirror's DOM parser (`parseSlice`). -/
def htmlPathNodes (marked : List Char → List Char)
    (parseSlice : List Char → List TipTapNode) (t : List Char) : List TipTapNode :=
  parseSlice (convertMarkdownToHTML marked t)

/-- Loop body of `convertMarkdownToTipTapNodes` over the detected blocks,
with `lastIndex` the cursor; the `[]` case is the after-the-loop handling
of the trailing substring. -/
def convertLoop (marked : List Char → List Char)
    (parseSlice : List Char → List TipTapNode) (T : List Char) :
    Nat → List MermaidBlock → List TipTapNode
  | lastIndex, [] =>
    if lastIndex < T.length then
      let afterText := T.drop lastIndex
      if !(jsTrim afterText).isEmpty then htmlPathNodes marked parseSlice afterText
      else []
    else []
  | lastIndex, b :: rest =>
    (if lastIndex < b.startIndex then
      let beforeText := (T.drop lastIndex).take (b.startIndex - lastIndex)
      if !(jsTrim beforeText).isEmpty then htmlPathNodes marked parseSlice beforeText
      else []
    else []) ++
    TipTapNode.mermaidBlock b.diagramType "preview" "default" b.content ::
    (if rest ≠ [] ∨ b.endIndex < T.length then [TipTapNode.paragraph] else []) ++
    convertLoop marked parseSlice T b.endIndex rest

/-- Model of `convertMarkdownToTipTapNodes` (markdownToTipTap.ts). -/
def convertMarkdownToTipTapNodes (marked : List Char → List Char)
    (parseSlice : List Char → List TipTapNode) (T : List Char) : List TipTapNode :=
  let mermaidBlocks := extractMermaidBlocks T
  if mermaidBlocks.isEmpty then htmlPathNodes marked parseSlice T
  else convertLoop marked parseSlice T 0 mermaidBlocks

/-- DOM rendering of one TipTap node, as produced by ProseMirror's
`DOMSerializer` under the schema of this editor: a `mermaidBlock` renders
per `MermaidBlock.renderHTML` (MermaidBlock.ts), a paragraph renders as an
empty `p` element, and an external node carries its own DOM. -/
def renderNodeDom : TipTapNode → Dom
  | .mermaidBlock dt vm th src =>
    .elem "div"
      [("data-type", "mermaid-block"), ("data-diagram-type", dt),
       ("data-view-mode", vm), ("data-theme", th), ("class", "mermaid-block")]
      [.elem "pre" [("class", "mermaid-source")]
        [.elem "code" [("class", "language-mermaid")] [.text src]]]
  | .paragraph => .elem "p" [] []
  | .std d => d

/-- Outcome of the paste handler: whether it reported the event handled,
and the editor document afterwards. -/
structure PasteOutcome (Doc : Type) where
  handled : Bool
  doc : Doc
deriving Repr

/-- Conversion steps inside the `try` block of `handlePaste`
(ClipboardTextParser.ts): `marked` on the whole text, the per-line
re-conversion for multi-line inline-only text, then ProseMirror's
`parseSlice`; each external step may throw, modelled by `Except`. -/
def pasteConvert {Slice : Type} (markedE : List Char → Except Unit (List Char))
    (parseSliceE : List Char → Except Unit Slice) (text : List Char) :
    Except Unit Slice := do
  let html ← markedE text
  let lines := (splitNL text).filter (fun l => !(jsTrim l).isEmpty)
  let finalHtml ←
    if 1 < lines.length ∧ ¬ lines.any blockSyntaxLine = true then do
      let hs ← lines.mapM markedE
      pure hs.flatten
    else
      pure html
  parseSliceE finalHtml

/-- Model of the `handlePaste` plugin prop of ClipboardTextParser.ts:
falsy clipboard text or a failed sniffer test return "not handled"; a
successful conversion dispatches the replace-selection transaction and
returns true; an exception is caught and returns "not handled" with the
document untouched. -/
def handlePaste {Doc Slice : Type} (markedE : List Char → Except Unit (List Char))
    (parseSliceE : List Char → Except Unit Slice)
    (applySlice : Doc → Slice → Doc) (doc : Doc)
    (clip : Option (List Char)) : PasteOutcome Doc :=
  match clip with
  | none => { handled := false, doc := doc }
  | some text =>
    if text.isEmpty then { handled := false, doc := doc }
    else if hasMarkdownSyntax text then
      match pasteConvert markedE parseSliceE text with
      | .ok slice => { handled := true, doc := applySlice doc slice }
      | .error _ => { handled := false, doc := doc }
    else { handled := false, doc := doc }

/-! Basic properties of the string operations. -/

/-- No occurrence of the triple-backtick delimiter, as a decidable scan. -/
def hasTicks : List Char → Bool
  | c1 :: c2 :: c3 :: rest =>
    (c1 = tick && c2 = tick && c3 = tick) || hasTicks (c2 :: c3 :: rest)
  | _ => false

/-- Freedom from the delimiter, phrased as in the spec: the text is not any
concatenation around a literal triple backtick. -/
def NoTicks (x : List Char) : Prop := ∀ a b : List Char, x ≠ a ++ ticksL ++ b

theorem noTicks_short (x : List Char) (h : x.length < 3) : NoTicks x := by
  intro a b hx
  have := congrArg List.length hx
  simp [ticksL] at this
  omega

theorem hasTicks_eq_false_iff : ∀ x : List Char, hasTicks x = false ↔ NoTicks x
  | [] => by
    simp [hasTicks]
    exact noTicks_short [] (by simp)
  | [c] => by
    simp [hasTicks]
    exact noTicks_short [c] (by simp)
  | [c, d] => by
    simp [hasTicks]
    exact noTicks_short [c, d] (by simp)
  | c1 :: c2 :: c3 :: rest => by
    rw [show hasTicks (c1 :: c2 :: c3 :: rest) =
      ((c1 = tick && c2 = tick && c3 = tick) || hasTicks (c2 :: c3 :: rest)) from rfl]
    constructor
    · intro h a b hx
      rcases Bool.or_eq_false_iff.mp h with ⟨h1, h2⟩
      match a, hx with
      | [], hx =>
        simp [ticksL] at hx
        simp [hx.1, hx.2.1, hx.2.2.1] at h1
      | a0 :: a', hx =>
        simp only [List.cons_append, List.cons.injEq] at hx
        exact (hasTicks_eq_false_iff (c2 :: c3 :: rest)).mp h2 a' b hx.2
    · intro h
      apply Bool.or_eq_false_iff.mpr
      constructor
      · by_contra hb
        rcases Bool.and_eq_true_iff.mp (Bool.not_eq_false _ |>.mp hb) with ⟨h12, h3⟩
        rcases Bool.and_eq_true_iff.mp h12 with ⟨h1, h2⟩
        exact h [] rest (by
          simp [ticksL, decide_eq_true_eq.mp h1, decide_eq_true_eq.mp h2,
            decide_eq_true_eq.mp h3])
      · apply (hasTicks_eq_false_iff (c2 :: c3 :: rest)).mpr
        intro a b hx
        exact h (c1 :: a) b (by simp [hx])

theorem noTicks_of_sub {y u x v : List Char} (hy : NoTicks y)
    (hx : y = u ++ x ++ v) : NoTicks x := by
  intro a b hab
  exact hy (u ++ a) (b ++ v) (by simp [hx, hab])

theorem splitTicks_ne_nil : ∀ t : List Char, splitTicks t ≠ []
  | [] => by simp [splitTicks]
  | [c] => by simp [splitTicks]
  | [c, d] => by simp [splitTicks]
  | c1 :: c2 :: c3 :: rest => by
    show splitTicks (c1 :: c2 :: c3 :: rest) ≠ []
    rw [splitTicks]
    split
    · simp
    · split <;> simp_all

theorem splitTicks_head_pre :
    ∀ (t p : List Char) (ps : List (List Char)),
      splitTicks t = p :: ps → ∃ q, t = p ++ q
  | [], p, ps => by
    intro h
    rw [show splitTicks [] = [([] : List Char)] from rfl, List.cons.injEq] at h
    exact ⟨[], by simp [← h.1]⟩
  | [c], p, ps => by
    intro h
    rw [show splitTicks [c] = [[c]] from rfl, List.cons.injEq] at h
    exact ⟨[], by simp [← h.1]⟩
  | [c, d], p, ps => by
    intro h
    rw [show splitTicks [c, d] = [[c, d]] from rfl, List.cons.injEq] at h
    exact ⟨[], by simp [← h.1]⟩
  | c1 :: c2 :: c3 :: rest, p, ps => by
    rw [splitTicks]
    split
    · rintro h
      rw [List.cons.injEq] at h
      exact ⟨c1 :: c2 :: c3 :: rest, by simp [← h.1]⟩
    · split
      · rename_i hsplit
        exact absurd hsplit (splitTicks_ne_nil _)
      · rename_i p0 ps0 hsplit
        intro h
        rw [List.cons.injEq] at h
        obtain ⟨q, hq⟩ := splitTicks_head_pre (c2 :: c3 :: rest) p0 ps0 hsplit
        exact ⟨q, by simp [← h.1, hq]⟩

theorem splitTicks_parts_noTicks :
    ∀ (t : List Char), ∀ p ∈ splitTicks t, NoTicks p
  | [] => by
    simp [splitTicks]
    exact noTicks_short [] (by simp)
  | [c] => by
    simp [splitTicks]
    exact noTicks_short [c] (by simp)
  | [c, d] => by
    simp [splitTicks]
    exact noTicks_short [c, d] (by simp)
  | c1 :: c2 :: c3 :: rest => by
    intro p hp
    rw [splitTicks] at hp
    split at hp
    · rcases List.mem_cons.mp hp with rfl | hmem
      · exact noTicks_short [] (by simp)
      · exact splitTicks_parts_noTicks rest p hmem
    · rename_i hcond
      split at hp
      · rename_i hsplit
        exact absurd hsplit (splitTicks_ne_nil _)
      · rename_i p0 ps0 hsplit
        rcases List.mem_cons.mp hp with rfl | hmem
        · intro a b hab
          match a, hab with
          | [], hab =>
            obtain ⟨q, hq⟩ := splitTicks_head_pre _ _ _ hsplit
            simp [ticksL] at hab
            obtain ⟨rfl, h2⟩ := hab
            have h23 : c2 = tick ∧ c3 = tick := by
              rw [h2] at hq
              simp at hq
              exact ⟨hq.1, hq.2.1⟩
            exact hcond ⟨rfl, h23.1, h23.2⟩
          | a0 :: a', hab =>
            simp only [List.cons_append, List.cons.injEq] at hab
            have hnp0 : NoTicks p0 :=
              splitTicks_parts_noTicks (c2 :: c3 :: rest) p0 (hsplit ▸ List.mem_cons_self _ _)
            exact hnp0 a' b hab.2
        · exact splitTicks_parts_noTicks (c2 :: c3 :: rest) p
            (hsplit ▸ List.mem_cons_of_mem _ hmem)

theorem splitTicks_eq_self :
    ∀ (t : List Char), NoTicks t → splitTicks t = [t]
  | [], _ => by simp [splitTicks]
  | [c], _ => by simp [splitTicks]
  | [c, d], _ => by simp [splitTicks]
  | c1 :: c2 :: c3 :: rest, h => by
    rw [splitTicks]
    split
    · rename_i hcond
      exact absurd (by simp [ticksL, hcond.1, hcond.2.1, hcond.2.2] : c1 :: c2 :: c3 :: rest = [] ++ ticksL ++ rest) (h [] rest)
    · have htail : NoTicks (c2 :: c3 :: rest) := by
        intro a b hab
        exact h (c1 :: a) b (by simp [hab])
      rw [splitTicks_eq_self (c2 :: c3 :: rest) htail]

theorem tickPos_length :
    ∀ (t : List Char) (off : Nat),
      (splitTicks t).length = (tickPosAux off t).length + 1
  | [], _ => by simp [splitTicks, tickPosAux]
  | [c], _ => by simp [splitTicks, tickPosAux]
  | [c, d], _ => by simp [splitTicks, tickPosAux]
  | c1 :: c2 :: c3 :: rest, off => by
    rw [splitTicks, tickPosAux]
    split
    · simp [tickPos_length rest (off + 3)]
    · split
      · rename_i hsplit
        exact absurd hsplit (splitTicks_ne_nil _)
      · rename_i p0 ps0 hsplit
        have := tickPos_length (c2 :: c3 :: rest) (off + 1)
        rw [hsplit] at this
        simpa using this

theorem hasTicks_append :
    ∀ (x : List Char), ∀ {y : List Char}, hasTicks x = false → hasTicks y = false →
      (x.getLast? ≠ some tick ∨ y.head? ≠ some tick) → hasTicks (x ++ y) = false
  | [], _, _, hy, _ => by simpa using hy
  | [c], y, _, hy, hj => by
    match y, hy, hj with
    | [], _, _ => rfl
    | [y0], _, _ => rfl
    | y0 :: y1 :: y'', hy, hj =>
      show ((c = tick && y0 = tick && y1 = tick) || hasTicks (y0 :: y1 :: y'')) = false
      rw [Bool.or_eq_false_iff]
      refine ⟨?_, hy⟩
      rcases hj with hj | hj
      · simp only [List.getLast?_singleton, ne_eq, Option.some.injEq] at hj
        simp [hj]
      · simp only [List.head?_cons, ne_eq, Option.some.injEq] at hj
        simp [hj]
  | [c, d], y, hx, hy, hj => by
    match y, hy, hj with
    | [], _, _ => simpa using hx
    | y0 :: y', hy, hj =>
      show ((c = tick && d = tick && y0 = tick) || hasTicks (d :: y0 :: y')) = false
      rw [Bool.or_eq_false_iff]
      have hlast : ([c, d].getLast? = some d) := rfl
      have hj' : ([d].getLast? ≠ some tick ∨ (y0 :: y').head? ≠ some tick) := by
        rcases hj with hj | hj
        · left; rw [hlast] at hj; simpa using (by simpa using hj : d ≠ tick)
        · right; exact hj
      refine ⟨?_, hasTicks_append [d] rfl hy hj'⟩
      rcases hj with hj | hj
      · rw [hlast] at hj
        have : d ≠ tick := by simpa using hj
        simp [this]
      · have : y0 ≠ tick := by simpa using hj
        simp [this]
  | c1 :: c2 :: c3 :: x', y, hx, hy, hj => by
    have hx' : ((c1 = tick && c2 = tick && c3 = tick) || hasTicks (c2 :: c3 :: x')) = false := hx
    rw [Bool.or_eq_false_iff] at hx'
    show ((c1 = tick && c2 = tick && c3 = tick) || hasTicks ((c2 :: c3 :: x') ++ y)) = false
    rw [Bool.or_eq_false_iff]
    refine ⟨hx'.1, ?_⟩
    apply hasTicks_append (c2 :: c3 :: x') hx'.2 hy
    rcases hj with hj | hj
    · left; rwa [List.getLast?_cons_cons] at hj
    · right; exact hj

theorem noTicks_append {x y : List Char} (hx : NoTicks x) (hy : NoTicks y)
    (hj : x.getLast? ≠ some tick ∨ y.head? ≠ some tick) : NoTicks (x ++ y) :=
  (hasTicks_eq_false_iff _).mp
    (hasTicks_append x ((hasTicks_eq_false_iff _).mpr hx)
      ((hasTicks_eq_false_iff _).mpr hy) hj)

theorem splitTicks_ticks_cons (r : List Char) :
    splitTicks (tick :: tick :: tick :: r) = [] :: splitTicks r := by
  rw [splitTicks]
  simp

theorem splitTicks_append_nofence :
    ∀ (x r : List Char), NoTicks x → x.getLast? ≠ some tick →
      splitTicks (x ++ ticksL ++ r) = x :: splitTicks r
  | [], r, _, _ => by
    simpa [ticksL] using splitTicks_ticks_cons r
  | [c], r, _, hlast => by
    have hc : c ≠ tick := by simpa using hlast
    show splitTicks (c :: tick :: tick :: (tick :: r)) = [c] :: splitTicks r
    rw [splitTicks, if_neg (by simp [hc]), splitTicks_ticks_cons]
  | [c, d], r, _, hlast => by
    have hd : d ≠ tick := by
      simpa using hlast
    show splitTicks (c :: d :: tick :: (tick :: tick :: r)) = [c, d] :: splitTicks r
    rw [splitTicks, if_neg (by simp [hd])]
    have hrec : splitTicks (d :: tick :: tick :: (tick :: r)) = [d] :: splitTicks r := by
      rw [splitTicks, if_neg (by simp [hd]), splitTicks_ticks_cons]
    rw [hrec]
  | c1 :: c2 :: c3 :: x', r, hx, hlast => by
    show splitTicks (c1 :: c2 :: c3 :: (x' ++ ticksL ++ r)) =
      (c1 :: c2 :: c3 :: x') :: splitTicks r
    rw [splitTicks]
    rw [if_neg (by
      rintro ⟨rfl, rfl, rfl⟩
      exact hx [] x' (by simp [ticksL]))]
    have htail : NoTicks (c2 :: c3 :: x') :=
      noTicks_of_sub hx (show c1 :: c2 :: c3 :: x' = [c1] ++ (c2 :: c3 :: x') ++ [] by simp)
    have hlast' : (c2 :: c3 :: x').getLast? ≠ some tick := by
      rwa [List.getLast?_cons_cons] at hlast
    have hrec := splitTicks_append_nofence (c2 :: c3 :: x') r htail hlast'
    rw [show (c2 :: c3 :: x') ++ ticksL ++ r = c2 :: c3 :: (x' ++ ticksL ++ r) by simp] at hrec
    rw [hrec]

theorem splitNL_ne_nil : ∀ l : List Char, splitNL l ≠ []
  | [] => by simp [splitNL]
  | c :: rest => by
    rw [splitNL]
    split
    · simp
    · split <;> simp_all

theorem joinNL_splitNL : ∀ l : List Char, joinNL (splitNL l) = l
  | [] => by simp [splitNL, joinNL]
  | c :: rest => by
    rw [splitNL]
    split
    · rename_i hc
      rcases hsp : splitNL rest with _ | ⟨p, ps⟩
      · exact absurd hsp (splitNL_ne_nil rest)
      · have := joinNL_splitNL rest
        rw [hsp] at this
        rw [joinNL, hc, this]
        simp
    · rcases hsp : splitNL rest with _ | ⟨p, ps⟩
      · exact absurd hsp (splitNL_ne_nil rest)
      · have := joinNL_splitNL rest
        rw [hsp] at this
        cases ps with
        | nil => rw [joinNL] at this ⊢; rw [this]
        | cons q qs =>
          rw [joinNL] at this ⊢
          simp at this ⊢
          rw [this]

theorem splitNL_append_line :
    ∀ (a r : List Char), (∀ c ∈ a, c ≠ '\n') →
      splitNL (a ++ '\n' :: r) = a :: splitNL r
  | [], r, _ => by
    rw [List.nil_append, splitNL]
    simp
  | c :: a', r, h => by
    rw [List.cons_append, splitNL, if_neg (by simp [h c (by simp)])]
    rw [splitNL_append_line a' r (fun d hd => h d (by simp [hd]))]

theorem dropWhile_append_all {p : Char → Bool} :
    ∀ (a y : List Char), (∀ c ∈ a, p c = true) →
      (a ++ y).dropWhile p = y.dropWhile p
  | [], y, _ => rfl
  | c :: a', y, h => by
    rw [List.cons_append, List.dropWhile_cons, if_pos (h c (by simp))]
    exact dropWhile_append_all a' y (fun d hd => h d (by simp [hd]))

theorem dropWhile_all_nil {p : Char → Bool} (a : List Char)
    (h : ∀ c ∈ a, p c = true) : a.dropWhile p = [] := by
  have := dropWhile_append_all a [] h
  simpa using this

theorem dropWhile_head_false {p : Char → Bool} :
    ∀ (l : List Char) (c : Char) (t : List Char),
      l.dropWhile p = c :: t → p c = false
  | [], c, t => by simp
  | a :: l', c, t => by
    rw [List.dropWhile_cons]
    split
    · exact dropWhile_head_false l' c t
    · rename_i ha
      intro h
      rw [List.cons.injEq] at h
      rw [← h.1]
      exact Bool.not_eq_true _ |>.mp ha

theorem dropWhile_idem {p : Char → Bool} (l : List Char) :
    (l.dropWhile p).dropWhile p = l.dropWhile p := by
  rcases h : l.dropWhile p with _ | ⟨c, t⟩
  · rfl
  · rw [List.dropWhile_cons, if_neg (by simp [dropWhile_head_false l c t h])]

theorem jsTrim_ws_left {a : List Char} (x : List Char)
    (h : ∀ c ∈ a, isJsWs c = true) : jsTrim (a ++ x) = jsTrim x := by
  unfold jsTrim
  rw [dropWhile_append_all a x h]

theorem jsTrim_nil : jsTrim [] = [] := rfl

theorem dropWhile_append_left {p : Char → Bool} :
    ∀ (x a : List Char), x.dropWhile p ≠ [] →
      (x ++ a).dropWhile p = x.dropWhile p ++ a
  | [], a, h => absurd rfl h
  | c :: x', a, h => by
    rw [List.dropWhile_cons] at h
    rw [List.cons_append, List.dropWhile_cons, List.dropWhile_cons]
    by_cases hp : p c = true
    · rw [if_pos hp] at h
      rw [if_pos hp, if_pos hp]
      exact dropWhile_append_left x' a h
    · rw [if_neg hp, if_neg hp]
      simp

theorem jsTrim_ws_right {a : List Char} (x : List Char)
    (h : ∀ c ∈ a, isJsWs c = true) : jsTrim (x ++ a) = jsTrim x := by
  unfold jsTrim
  rcases hd : x.dropWhile isJsWs with _ | ⟨c, t⟩
  · have hall : ∀ c ∈ x, isJsWs c = true := by
      intro c hc
      by_contra hcc
      have h1 := List.takeWhile_append_dropWhile (p := isJsWs) (l := x)
      rw [hd, List.append_nil] at h1
      rw [← h1] at hc
      exact hcc (List.mem_takeWhile_imp hc)
    simp [dropWhile_append_all x a hall, dropWhile_all_nil a h, hd]
  · rw [dropWhile_append_left x a (by rw [hd]; simp), hd]
    rw [List.reverse_append]
    rw [dropWhile_append_all a.reverse (c :: t).reverse
      (fun d hd2 => h d (List.mem_reverse.mp hd2))]

theorem takeWhile_append_all {p : Char → Bool} :
    ∀ (a b : List Char), (∀ c ∈ a, p c = true) →
      (a ++ b).takeWhile p = a ++ b.takeWhile p
  | [], b, _ => rfl
  | c :: a', b, h => by
    rw [List.cons_append, List.takeWhile_cons, if_pos (h c (by simp))]
    rw [takeWhile_append_all a' b (fun d hd => h d (by simp [hd])), List.cons_append]

theorem jsTrim_head_not_ws (x : List Char) (c : Char) (t : List Char)
    (h : jsTrim x = c :: t) : isJsWs c = false := by
  unfold jsTrim at h
  rcases hd : (x.dropWhile isJsWs).reverse.dropWhile isJsWs with _ | ⟨d, w⟩
  · rw [hd] at h; simp at h
  · rw [hd] at h
    -- c :: t is the reverse of d :: w, so c is the last kept char of the
    -- reversed list, i.e. the head of the forward dropWhile
    have h2 : x.dropWhile isJsWs = (d :: w).reverse ++ ((x.dropWhile isJsWs).reverse.takeWhile isJsWs).reverse := by
      have h3 := List.takeWhile_append_dropWhile (p := isJsWs)
        (l := (x.dropWhile isJsWs).reverse)
      rw [hd] at h3
      have h4 := congrArg List.reverse h3
      simpa using h4.symm
    rcases hw : (d :: w).reverse with _ | ⟨e, u⟩
    · simp at hw
    · rw [hw] at h2
      rw [hw] at h
      rw [List.cons.injEq] at h
      rw [h.1] at h2
      exact dropWhile_head_false x c _ h2

theorem jsTrim_last_not_ws (x : List Char) (c : Char)
    (h : (jsTrim x).getLast? = some c) : isJsWs c = false := by
  unfold jsTrim at h
  rw [List.getLast?_reverse] at h
  rcases hd : (x.dropWhile isJsWs).reverse.dropWhile isJsWs with _ | ⟨d, w⟩
  · rw [hd] at h; simp at h
  · rw [hd] at h
    simp at h
    rw [← h]
    exact dropWhile_head_false _ d w hd

theorem jsTrim_no_strip (x : List Char)
    (hh : ∀ c t, x = c :: t → isJsWs c = false)
    (hl : ∀ c, x.getLast? = some c → isJsWs c = false) : jsTrim x = x := by
  cases x with
  | nil => rfl
  | cons c t =>
    unfold jsTrim
    rw [List.dropWhile_cons, if_neg (by simp [hh c t rfl])]
    rcases hr : (c :: t).reverse with _ | ⟨d, w⟩
    · simp at hr
    · have hd : isJsWs d = false := by
        apply hl d
        rw [← List.head?_reverse, hr]
        rfl
      have hnd : List.dropWhile isJsWs (d :: w) = d :: w := by
        rw [List.dropWhile_cons, if_neg (show ¬ (isJsWs d = true) by simp [hd])]
      rw [hnd, ← hr, List.reverse_reverse]

theorem jsTrim_idem (x : List Char) : jsTrim (jsTrim x) = jsTrim x := by
  apply jsTrim_no_strip
  · intro c t h
    exact jsTrim_head_not_ws x c t h
  · intro c h
    exact jsTrim_last_not_ws x c h

theorem jsTrim_decomp (x : List Char) : ∃ u v, x = u ++ jsTrim x ++ v := by
  refine ⟨x.takeWhile isJsWs,
    ((x.dropWhile isJsWs).reverse.takeWhile isJsWs).reverse, ?_⟩
  unfold jsTrim
  conv_lhs => rw [← List.takeWhile_append_dropWhile (p := isJsWs) (l := x)]
  rw [List.append_assoc]
  congr 1
  conv_lhs => rw [← List.reverse_reverse (x.dropWhile isJsWs),
    ← List.takeWhile_append_dropWhile (p := isJsWs) (l := (x.dropWhile isJsWs).reverse)]
  rw [List.reverse_append]

theorem noTicks_jsTrim {x : List Char} (h : NoTicks x) : NoTicks (jsTrim x) := by
  obtain ⟨u, v, huv⟩ := jsTrim_decomp x
  exact noTicks_of_sub h huv

theorem noTicks_mermaidContentOf {content : List Char} (h : NoTicks content) :
    NoTicks (mermaidContentOf content) := by
  unfold mermaidContentOf
  apply noTicks_jsTrim
  rcases hsp : splitNL content with _ | ⟨l0, rest⟩
  · exact absurd hsp (splitNL_ne_nil content)
  · cases rest with
    | nil => exact noTicks_short [] (by simp)
    | cons l1 rest' =>
      have hjoin := joinNL_splitNL content
      rw [hsp, joinNL] at hjoin
      simp only [List.drop_succ_cons, List.drop_zero]
      exact noTicks_of_sub (u := l0 ++ ['\n']) (v := []) h (by rw [← hjoin]; simp)

theorem jsTrim_mermaidContentOf (content : List Char) :
    jsTrim (mermaidContentOf content) = mermaidContentOf content := by
  unfold mermaidContentOf
  exact jsTrim_idem _

theorem extractAux_mem_content {L : Nat} :
    ∀ (cs : List (List Char)) (ps : List Nat) (b : MermaidBlock),
      b ∈ extractAux L cs ps → ∃ content ∈ cs, b.content = mermaidContentOf content
  | [], ps, b => by
    intro h
    simp [extractAux] at h
  | content :: rest, [], b => by
    intro h
    simp [extractAux] at h
  | content :: rest, pos :: restPos, b => by
    intro h
    simp only [extractAux] at h
    rcases List.mem_append.mp h with hl | hr
    · refine ⟨content, by simp, ?_⟩
      split at hl
      · simp at hl
        rw [hl]
      · simp at hl
    · obtain ⟨c, hc1, hc2⟩ := extractAux_mem_content rest restPos b hr
      exact ⟨c, by simp [hc1], hc2⟩

theorem extract_content_props (T : List Char) (b : MermaidBlock)
    (hb : b ∈ extractMermaidBlocks T) :
    NoTicks b.content ∧ jsTrim b.content = b.content := by
  obtain ⟨content, hin, hc⟩ := extractAux_mem_content _ _ b hb
  have hparts : content ∈ splitTicks T := by
    have := List.mem_of_mem_drop hin
    exact this
  have hnt := splitTicks_parts_noTicks T content hparts
  constructor
  · rw [hc]
    exact noTicks_mermaidContentOf hnt
  · rw [hc]
    exact jsTrim_mermaidContentOf content

/-- C10: for every input text, every segment returned by
`extractMermaidBlocks` has a content string containing no occurrence of the
triple-backtick fence delimiter: the split removes every occurrence, and
the line-slice, rejoin and trim performed afterwards cannot reintroduce
one, so a diagram segment content can always be re-wrapped in a fence. -/
theorem extracted_content_has_no_fence (T : List Char) (b : MermaidBlock)
    (hb : b ∈ extractMermaidBlocks T) (a c : List Char) :
    b.content ≠ a ++ ticksL ++ c :=
  (extract_content_props T b hb).1 a c

theorem extracted_content_has_no_fence_witness :
    ({ content := "A-->B".data, startIndex := 0, endIndex := 20,
       diagramType := "flowchart" } : MermaidBlock).content ≠ [] ++ ticksL ++ [] :=
  extracted_content_has_no_fence "```mermaid\nA-->B\n```".data _ (by decide) [] []

/-- C3: for every text containing zero occurrences of the triple-backtick
fence delimiter, `convertMarkdownToTipTapNodes` returns exactly the node
sequence obtained by delegating the entire text to the external standard
converter through the HTML-parse path, with no diagram nodes and no added
separator paragraphs. -/
theorem convert_no_fences_delegates (marked : List Char → List Char)
    (parseSlice : List Char → List TipTapNode) (T : List Char)
    (hfree : ∀ a b : List Char, T ≠ a ++ ticksL ++ b) :
    convertMarkdownToTipTapNodes marked parseSlice T =
      htmlPathNodes marked parseSlice T := by
  have hsp : splitTicks T = [T] := splitTicks_eq_self T hfree
  have hext : extractMermaidBlocks T = [] := by
    unfold extractMermaidBlocks
    rw [hsp]
    rfl
  unfold convertMarkdownToTipTapNodes
  rw [hext]
  rfl

theorem convert_no_fences_delegates_witness :
    convertMarkdownToTipTapNodes (fun t => t)
      (fun h => [TipTapNode.std (Dom.text h)]) "hello `code` world".data =
    htmlPathNodes (fun t => t)
      (fun h => [TipTapNode.std (Dom.text h)]) "hello `code` world".data :=
  convert_no_fences_delegates _ _ _ ((hasTicks_eq_false_iff _).mp (by decide))

theorem find?_first_match {α : Type} (p : α → Bool) :
    ∀ (l : List α) (i : Nat) (hi : i < l.length),
      p (l.get ⟨i, hi⟩) = true →
      (∀ j (hj : j < i), p (l.get ⟨j, Nat.lt_trans hj hi⟩) = false) →
      l.find? p = some (l.get ⟨i, hi⟩)
  | a :: t, 0, hi => by
    intro hp _
    simp only [List.get] at hp ⊢
    rw [List.find?_cons_of_pos _ hp]
  | a :: t, i + 1, hi => by
    intro hp hprev
    have ha : p a = false := by
      have := hprev 0 (by omega)
      simpa using this
    rw [List.find?_cons_of_neg _ (by simp [ha])]
    have := find?_first_match p t i (by simpa using hi)
      (by simpa using hp)
      (fun j hj => by
        have := hprev (j + 1) (by omega)
        simpa using this)
    simpa using this

/-- The 14 diagram kind tags of the closed enumeration. -/
def mermaidKinds : List String :=
  ["flowchart", "sequence", "class", "state", "gantt", "pie", "mindmap",
   "er", "git", "timeline", "journey", "quadrant", "c4", "requirement"]

/-- C7: `detectDiagramType` is total and deterministic: every result is one
of the 14 kind tags, patterns are tried in a fixed priority order with the
first match winning, unmatched input yields the default tag
`'flowchart'`, and two calls on the same input agree. -/
theorem detectDiagramType_total_det (s : List Char) :
    detectDiagramType s ∈ mermaidKinds ∧
    detectDiagramType s = detectDiagramType s ∧
    ((∀ pr ∈ typePatterns, pr.1 s = false) → detectDiagramType s = "flowchart") ∧
    (∀ i (hi : i < typePatterns.length),
      (typePatterns.get ⟨i, hi⟩).1 s = true →
      (∀ j (hj : j < i), (typePatterns.get ⟨j, Nat.lt_trans hj hi⟩).1 s = false) →
      detectDiagramType s = (typePatterns.get ⟨i, hi⟩).2) := by
  refine ⟨?_, rfl, ?_, ?_⟩
  · unfold detectDiagramType
    rcases hf : typePatterns.find? (fun pr => pr.1 s) with _ | pr
    · simp only [hf]
      simp [mermaidKinds]
    · simp only [hf]
      have hmem := List.mem_of_find?_eq_some hf
      unfold typePatterns at hmem
      fin_cases hmem <;> simp [mermaidKinds]
  · intro h
    unfold detectDiagramType
    rw [List.find?_eq_none.mpr (fun pr hpr => by simp [h pr hpr])]
  · intro i hi hp hprev
    unfold detectDiagramType
    rw [find?_first_match _ typePatterns i hi hp hprev]

theorem detectDiagramType_total_det_witness :
    detectDiagramType "sequenceDiagram\nA->>B: hi".data = "sequence" := by
  have h := (detectDiagramType_total_det "sequenceDiagram\nA->>B: hi".data).2.2.2
    3 (by decide) (by decide)
    (by decide)
  exact h.trans (by decide)

/-- C9: in the paste adapter, whenever the Markdown-detection gate passes
but the conversion steps throw, the handler catches the exception and
reports the paste as not handled, dispatching nothing: the editor document
is unchanged, so the host default plain-text paste still applies and the
pasted text is not silently lost. -/
theorem handlePaste_error_not_handled {Doc Slice : Type}
    (markedE : List Char → Except Unit (List Char))
    (parseSliceE : List Char → Except Unit Slice)
    (applySlice : Doc → Slice → Doc) (doc : Doc) (text : List Char)
    (hgate : hasMarkdownSyntax text = true)
    (herr : ∃ e, pasteConvert markedE parseSliceE text = Except.error e) :
    handlePaste markedE parseSliceE applySlice doc (some text) =
      { handled := false, doc := doc } := by
  obtain ⟨e, he⟩ := herr
  by_cases hemp : text.isEmpty
  · simp [handlePaste, hemp]
  · simp [handlePaste, hemp, hgate, he]

theorem handlePaste_error_not_handled_witness :
    @handlePaste Nat Unit (fun _ => Except.error ())
      (fun _ => Except.ok ()) (fun d _ => d + 1) 0 (some "# Heading".data) =
      { handled := false, doc := 0 } :=
  handlePaste_error_not_handled _ _ _ 0 _ (by decide) ⟨(), rfl⟩

/-- A `mermaidBlock` node test, for counting diagram nodes. -/
def isMermaidNode : TipTapNode → Bool
  | .mermaidBlock _ _ _ _ => true
  | _ => false

/-- C4 (failing input): the scanner checks every span that follows a
delimiter, not only the odd-indexed inside-fence spans.  On this input the
single fenced span is tagged `python` and is not a diagram, yet the text
lying after the closing fence is returned as a segment because its first
non-blank line is `mermaid`. -/
theorem scanner_outside_fence_bug :
    extractMermaidBlocks "```python\nx\n```\nmermaid\nfoo".data =
      [{ content := "mermaid\nfoo".data, startIndex := 12, endIndex := 27,
         diagramType := "flowchart" }] ∧
    splitTicks "```python\nx\n```\nmermaid\nfoo".data =
      [[], "python\nx\n".data, "\nmermaid\nfoo".data] ∧
    isMermaidTagged "python\nx\n".data = false := by
  refine ⟨by decide, by decide, by decide⟩

/-- C2 (failing input): a text with exactly one well-formed mermaid fence
for which the converter nevertheless returns two `mermaidBlock` nodes,
because the scanner also matches the text after the closing fence. -/
theorem convert_single_fence_bug :
    ((convertMarkdownToTipTapNodes (fun _ => []) (fun _ => [])
        "```mermaid\nA-->B\n```\nmermaid\ntail".data).countP isMermaidNode) = 2 ∧
    (extractMermaidBlocks "```mermaid\nA-->B\n```\nmermaid\ntail".data).map
      (fun b => b.content) = ["A-->B".data, "mermaid\ntail".data] := by
  refine ⟨by decide, by decide⟩

/-- Modelled from the spec: the fenced code-block emission rule as the spec
table states it — three backticks, the optional language tag, a newline,
the raw text, a newline, three closing backticks, then a blank line. -/
def specCodeBlockForm (lang t : List Char) : List Char :=
  ticksL ++ lang ++ '\n' :: t ++ '\n' :: ticksL ++ "\n\n".data

/-- C5 counterexample: the save-path serializer emits the closing fence
directly after the code text, without the newline the claim requires. -/
theorem codeblock_claim_counterexample :
    processNode "div" (Dom.elem "pre" []
      [Dom.elem "code" [("class", "language-python")] [Dom.text "x = 1".data]]) =
      "```python\nx = 1```\n\n".data ∧
    "```python\nx = 1```\n\n".data ≠
      specCodeBlockForm "python".data "x = 1".data := by
  refine ⟨by decide, by decide⟩

/-- C5 amended: for a `pre` element containing a `code` child, the
copy-path serializer emits the spec form (newline before the closing
fence), while the save-path serializer emits the raw text immediately
followed by the closing fence and the blank line. -/
theorem codeblock_emission (parentTag : String) (attrs : List (String × String))
    (cls : String) (t : List Char) :
    serializeNode parentTag (Dom.elem "pre" attrs
      [Dom.elem "code" [("class", cls)] [Dom.text t]]) =
      specCodeBlockForm ((findLang cls.data).getD []) t ∧
    processNode parentTag (Dom.elem "pre" attrs
      [Dom.elem "code" [("class", cls)] [Dom.text t]]) =
      ticksL ++ ((findLang cls.data).getD []) ++ '\n' :: t ++ ticksL ++ "\n\n".data := by
  constructor <;>
    simp [serializeNode, processNode, findCode, descendantsMatchingList,
      descendantsSelf, langOf, classOf, getAttr, textContent, textContentList,
      specCodeBlockForm]

/-- Modelled from the spec: the blockquote emission rule as the claim
states it — each non-empty line of the trimmed child serialization is
prefixed, empty lines are not, then the block ends in a blank line. -/
def specBlockquoteClaim (inner : List Char) : List Char :=
  joinNL ((splitNL inner).map
    (fun ln => if ln.isEmpty then ln else "> ".data ++ ln)) ++ "\n\n".data

/-- Modelled from the spec as amended: every line of the trimmed child
serialization, including empty ones, is prefixed. -/
def specBlockquoteAmended (inner : List Char) : List Char :=
  joinNL ((splitNL inner).map (fun ln => "> ".data ++ ln)) ++ "\n\n".data

theorem perLine_join :
    ∀ (ls : List (List Char)), ls ≠ [] →
      ((ls.map (fun ln => "> ".data ++ ln ++ ['\n'])).flatten ++ ['\n']) =
      joinNL (ls.map (fun ln => "> ".data ++ ln)) ++ "\n\n".data
  | [l], _ => by
    simp [joinNL]
  | l :: l2 :: rest, _ => by
    have ih := perLine_join (l2 :: rest) (by simp)
    simp only [List.map_cons, List.flatten_cons, joinNL, List.append_assoc] at ih ⊢
    rw [← List.append_assoc, ih]
    simp

/-- C8 counterexample: on a blockquote whose children serialize with an
interior empty line, both serializers prefix the empty line too, so the
output differs from the claimed form that leaves empty lines bare. -/
theorem blockquote_claim_counterexample :
    serializeNode "div" (Dom.elem "blockquote" []
      [Dom.elem "p" [] [Dom.text "a".data], Dom.elem "p" [] [Dom.text "b".data]]) =
      "> a\n> \n> b\n\n".data ∧
    processNode "div" (Dom.elem "blockquote" []
      [Dom.elem "p" [] [Dom.text "a".data], Dom.elem "p" [] [Dom.text "b".data]]) =
      "> a\n> \n> b\n\n".data ∧
    "> a\n> \n> b\n\n".data ≠
      specBlockquoteClaim (jsTrim (serializeList "blockquote"
        [Dom.elem "p" [] [Dom.text "a".data], Dom.elem "p" [] [Dom.text "b".data]])) := by
  refine ⟨by decide, by decide, by decide⟩

/-- C8 amended: both serializer variants produce the trimmed child
serialization split on newlines with every line — empty lines included —
prefixed by the quote marker, ending in a blank line; the two variants
produce the identical string. -/
theorem blockquote_emission (parentTag : String) (attrs : List (String × String))
    (children : List Dom) :
    serializeNode parentTag (Dom.elem "blockquote" attrs children) =
      specBlockquoteAmended (jsTrim (serializeList "blockquote" children)) ∧
    processNode parentTag (Dom.elem "blockquote" attrs children) =
      specBlockquoteAmended (jsTrim (processList "blockquote" children)) := by
  constructor
  · rw [show serializeNode parentTag (Dom.elem "blockquote" attrs children) =
      ((splitNL (jsTrim (serializeList "blockquote" children))).map
        (fun ln => "> ".data ++ ln ++ ['\n'])).flatten ++ ['\n'] from by
        simp [serializeNode]]
    rw [perLine_join _ (splitNL_ne_nil _)]
    rfl
  · simp [processNode, specBlockquoteAmended]

theorem getLast?_cons_ne {α : Type} (a : α) (l : List α) (h : l ≠ []) :
    (a :: l).getLast? = l.getLast? := by
  cases l with
  | nil => exact absurd rfl h
  | cons b m => exact List.getLast?_cons_cons

theorem getLast?_append_right {α : Type} :
    ∀ (l1 l2 : List α), l2 ≠ [] → (l1 ++ l2).getLast? = l2.getLast?
  | [], l2, _ => by simp
  | a :: l1', l2, h => by
    rw [List.cons_append, getLast?_cons_ne a (l1' ++ l2) (by simp [h]),
      getLast?_append_right l1' l2 h]

theorem extractAux_ne_nil_of_last (L : Nat) :
    ∀ (cs : List (List Char)) (ps : List Nat) (p : List Char),
      cs.length = ps.length → cs.getLast? = some p → isMermaidTagged p = true →
      ∃ b, (extractAux L cs ps).getLast? = some b ∧ b.endIndex = L
  | [], ps, p => by
    intro _ hl _
    simp at hl
  | [c], ps, p => by
    intro hlen hl hm
    match ps, hlen with
    | [q], _ =>
      have hcp : c = p := by simpa using hl
      rw [hcp]
      refine ⟨⟨mermaidContentOf p, q, L, detectDiagramType (mermaidContentOf p)⟩, ?_, rfl⟩
      simp only [extractAux, if_pos hm]
      rfl
  | c :: c2 :: cs', ps, p => by
    intro hlen hl hm
    match ps, hlen with
    | q :: q2 :: ps', hlen =>
      have hl' : (c2 :: cs').getLast? = some p := by
        rwa [getLast?_cons_ne c (c2 :: cs') (by simp)] at hl
      obtain ⟨b, hb1, hb2⟩ := extractAux_ne_nil_of_last L (c2 :: cs') (q2 :: ps') p
        (by simpa using hlen) hl' hm
      have hne : extractAux L (c2 :: cs') (q2 :: ps') ≠ [] := by
        intro hnil
        rw [hnil] at hb1
        simp at hb1
      refine ⟨b, ?_, hb2⟩
      have hstep : extractAux L (c :: c2 :: cs') (q :: q2 :: ps') =
          (if isMermaidTagged c then
            [⟨mermaidContentOf c, q, q2 + 3, detectDiagramType (mermaidContentOf c)⟩]
          else []) ++ extractAux L (c2 :: cs') (q2 :: ps') := rfl
      rw [hstep, getLast?_append_right _ _ hne]
      exact hb1

/-- C6: on a text ending in a fence opened with the mermaid tag but never
closed (an odd number of fence delimiters), the scanner is total — it is a
function and cannot throw — and it returns a final segment whose endIndex
equals the text length, treating the unterminated fence as extending to the
end of the text. -/
theorem extract_unterminated_fence (T : List Char) (p : List Char)
    (hodd : (tickPositions T).length % 2 = 1)
    (hlast : (splitTicks T).getLast? = some p)
    (hmer : isMermaidTagged p = true) :
    ∃ b, (extractMermaidBlocks T).getLast? = some b ∧ b.endIndex = T.length := by
  have hlen := tickPos_length T 0
  have hpos_ne : tickPositions T ≠ [] := by
    intro h
    unfold tickPositions at h
    rw [show tickPosAux 0 T = tickPositions T from rfl] at h
    rw [h] at hodd
    simp at hodd
  rcases hparts : splitTicks T with _ | ⟨p0, rest⟩
  · exact absurd hparts (splitTicks_ne_nil T)
  · have hlen' : (p0 :: rest).length = (tickPositions T).length + 1 := by
      rw [← hparts]
      exact hlen
    have hrest_ne : rest ≠ [] := by
      intro h
      rw [h] at hlen'
      simp at hlen'
      exact hpos_ne hlen'
    have hrl : rest.getLast? = some p := by
      rw [hparts] at hlast
      rwa [getLast?_cons_ne p0 rest hrest_ne] at hlast
    have hlen2 : rest.length = (tickPositions T).length := by
      simp at hlen'
      omega
    unfold extractMermaidBlocks
    rw [hparts]
    simp only [List.drop_succ_cons, List.drop_zero]
    exact extractAux_ne_nil_of_last T.length rest (tickPositions T) p hlen2 hrl hmer

theorem extract_unterminated_fence_witness :
    ∃ b, (extractMermaidBlocks "start\n```mermaid\nA-->B".data).getLast? = some b ∧
      b.endIndex = "start\n```mermaid\nA-->B".data.length :=
  extract_unterminated_fence _ "mermaid\nA-->B".data (by decide) (by decide) (by decide)

/-- The Markdown text the copy-path serializer emits for one rendered
`mermaidBlock` node: the exact case-sensitive marker line inside a
triple-backtick fence, then the source text, then the closing fence and a
blank line. -/
def fenceOf (S : List Char) : List Char :=
  ticksL ++ "mermaid\n".data ++ S ++ '\n' :: ticksL ++ "\n\n".data

theorem serialize_mermaid_node (dt vm th : String) (src : List Char) :
    serializeNode "div" (renderNodeDom (TipTapNode.mermaidBlock dt vm th src)) =
      fenceOf src := by
  have hlang : findLang "language-mermaid".data = some "mermaid".data := by decide
  simp [renderNodeDom, serializeNode, serializeList, findCode,
    descendantsMatchingList, descendantsSelf, langOf, classOf, getAttr, hlang,
    textContent, textContentList, fenceOf, ticksL]

theorem serialize_para :
    serializeNode "div" (renderNodeDom TipTapNode.paragraph) = [] := by
  simp [renderNodeDom, serializeNode, serializeList, jsTrim]

theorem serializeList_append (p : String) :
    ∀ (a b : List Dom), serializeList p (a ++ b) = serializeList p a ++ serializeList p b
  | [], b => rfl
  | d :: a', b => by
    rw [List.cons_append]
    show serializeNode p d ++ serializeList p (a' ++ b) = _
    rw [serializeList_append p a' b]
    show _ = serializeNode p d ++ serializeList p a' ++ serializeList p b
    rw [List.append_assoc]

theorem firstLine_fence (S : List Char) (hS : jsTrim S = S) :
    firstLineAfterTrim ("mermaid\n".data ++ S ++ ['\n']) = "mermaid".data := by
  unfold firstLineAfterTrim
  have h1 : jsTrim ("mermaid\n".data ++ S ++ ['\n']) = jsTrim ("mermaid\n".data ++ S) := by
    rw [show "mermaid\n".data ++ S ++ ['\n'] = ("mermaid\n".data ++ S) ++ ['\n'] by
      rw [List.append_assoc]]
    exact jsTrim_ws_right _ (by decide)
  rw [h1]
  cases S with
  | nil => decide
  | cons c t =>
    have hfix : jsTrim ("mermaid\n".data ++ (c :: t)) = "mermaid\n".data ++ (c :: t) := by
      apply jsTrim_no_strip
      · intro c0 t0 h0
        have : c0 = 'm' := by
          rw [show "mermaid\n".data ++ (c :: t) = 'm' :: ("ermaid\n".data ++ (c :: t)) from rfl] at h0
          rw [List.cons.injEq] at h0
          exact h0.1.symm
        rw [this]
        decide
      · intro d hd
        rw [getLast?_append_right _ _ (by simp)] at hd
        apply jsTrim_last_not_ws (c :: t) d
        rw [hS]
        exact hd
    rw [hfix]
    rw [show "mermaid\n".data ++ (c :: t) = "mermaid".data ++ ('\n' :: (c :: t)) from rfl]
    rw [takeWhile_append_all "mermaid".data ('\n' :: (c :: t)) (by decide)]
    rw [show List.takeWhile (fun c => decide ¬c = '\n') ('\n' :: (c :: t)) = [] from by
      rw [List.takeWhile_cons]
      simp]
    decide

theorem isMermaidTagged_fence (S : List Char) (hS : jsTrim S = S) :
    isMermaidTagged ("mermaid\n".data ++ S ++ ['\n']) = true := by
  unfold isMermaidTagged
  rw [firstLine_fence S hS]
  simp

theorem mermaidContentOf_fence (S : List Char) (hS : jsTrim S = S) :
    mermaidContentOf ("mermaid\n".data ++ S ++ ['\n']) = S := by
  unfold mermaidContentOf
  rw [show "mermaid\n".data ++ S ++ ['\n'] = "mermaid".data ++ '\n' :: (S ++ ['\n']) from by
    simp]
  rw [splitNL_append_line "mermaid".data (S ++ ['\n']) (by decide)]
  simp only [List.drop_succ_cons, List.drop_zero]
  rw [joinNL_splitNL]
  rw [jsTrim_ws_right _ (by decide)]
  exact hS

/-- Markdown the copy path re-emits for the nodes that the external
standard-converter path produced from a non-diagram span. -/
def stdSer (marked : List Char → List Char)
    (parseSlice : List Char → List TipTapNode) (x : List Char) : List Char :=
  serializeList "div" ((htmlPathNodes marked parseSlice x).map renderNodeDom)

/-- Serialization of the nodes the converter inserts before a block from
cursor position `lastIndex`. -/
def betweenSer (marked : List Char → List Char)
    (parseSlice : List Char → List TipTapNode) (T : List Char)
    (lastIndex : Nat) (b : MermaidBlock) : List Char :=
  if lastIndex < b.startIndex then
    if !(jsTrim ((T.drop lastIndex).take (b.startIndex - lastIndex))).isEmpty then
      stdSer marked parseSlice ((T.drop lastIndex).take (b.startIndex - lastIndex))
    else []
  else []

/-- Serialization of the nodes the converter appends for the trailing
substring after the last block. -/
def afterSer (marked : List Char → List Char)
    (parseSlice : List Char → List TipTapNode) (T : List Char)
    (lastIndex : Nat) : List Char :=
  if lastIndex < T.length then
    if !(jsTrim (T.drop lastIndex)).isEmpty then
      stdSer marked parseSlice (T.drop lastIndex)
    else []
  else []

/-- The (diagram source, following prose serialization) pairs of the
serialized document, one per detected block. -/
def c1Pairs (marked : List Char → List Char)
    (parseSlice : List Char → List TipTapNode) (T : List Char) :
    List MermaidBlock → List (List Char × List Char)
  | [] => []
  | [b] => [(b.content, afterSer marked parseSlice T b.endIndex)]
  | b :: b2 :: rest =>
    (b.content, betweenSer marked parseSlice T b.endIndex b2) ::
      c1Pairs marked parseSlice T (b2 :: rest)

/-- Concatenated document text after the leading prose span. -/
def assemble : List (List Char × List Char) → List Char
  | [] => []
  | (S, g) :: rest => fenceOf S ++ g ++ assemble rest

/-- Parts that re-scanning the assembled document must produce. -/
def c1Parts : List (List Char × List Char) → List (List Char)
  | [] => []
  | (S, g) :: rest =>
    ("mermaid\n".data ++ S ++ ['\n']) :: ("\n\n".data ++ g) :: c1Parts rest

theorem c1Pairs_fst (marked : List Char → List Char)
    (parseSlice : List Char → List TipTapNode) (T : List Char) :
    ∀ blocks : List MermaidBlock,
      (c1Pairs marked parseSlice T blocks).map (fun pr => pr.1) =
        blocks.map (fun b => b.content)
  | [] => rfl
  | [b] => rfl
  | b :: b2 :: rest => by
    show ((b.content, betweenSer marked parseSlice T b.endIndex b2) ::
      c1Pairs marked parseSlice T (b2 :: rest)).map (fun pr => pr.1) = _
    simp only [List.map_cons]
    rw [c1Pairs_fst marked parseSlice T (b2 :: rest)]
    rfl

theorem c1Pairs_fst_mem (marked : List Char → List Char)
    (parseSlice : List Char → List TipTapNode) (T : List Char) :
    ∀ (blocks : List MermaidBlock) (pr : List Char × List Char),
      pr ∈ c1Pairs marked parseSlice T blocks → ∃ b ∈ blocks, pr.1 = b.content
  | [], pr => by simp [c1Pairs]
  | [b], pr => by
    intro h
    simp [c1Pairs] at h
    exact ⟨b, by simp, by rw [h]⟩
  | b :: b2 :: rest, pr => by
    intro h
    rcases List.mem_cons.mp h with rfl | hmem
    · exact ⟨b, by simp, rfl⟩
    · obtain ⟨b', hb1, hb2⟩ := c1Pairs_fst_mem marked parseSlice T (b2 :: rest) pr hmem
      exact ⟨b', by simp [List.mem_cons.mp hb1], hb2⟩

theorem c1Pairs_snd_cases (marked : List Char → List Char)
    (parseSlice : List Char → List TipTapNode) (T : List Char) :
    ∀ (blocks : List MermaidBlock) (pr : List Char × List Char),
      pr ∈ c1Pairs marked parseSlice T blocks →
      pr.2 = [] ∨ ∃ s, pr.2 = stdSer marked parseSlice s
  | [], pr => by simp [c1Pairs]
  | [b], pr => by
    intro h
    simp [c1Pairs] at h
    rw [h]
    unfold afterSer
    split
    · split
      · exact Or.inr ⟨_, rfl⟩
      · exact Or.inl rfl
    · exact Or.inl rfl
  | b :: b2 :: rest, pr => by
    intro h
    rcases List.mem_cons.mp h with rfl | hmem
    · unfold betweenSer
      split
      · split
        · exact Or.inr ⟨_, rfl⟩
        · exact Or.inl rfl
      · exact Or.inl rfl
    · exact c1Pairs_snd_cases marked parseSlice T (b2 :: rest) pr hmem

theorem ser_before (marked : List Char → List Char)
    (parseSlice : List Char → List TipTapNode) (T : List Char)
    (lastIndex : Nat) (b : MermaidBlock) :
    serializeList "div" (((if lastIndex < b.startIndex then
      (if !(jsTrim ((T.drop lastIndex).take (b.startIndex - lastIndex))).isEmpty then
        htmlPathNodes marked parseSlice ((T.drop lastIndex).take (b.startIndex - lastIndex))
      else []) else []) : List TipTapNode).map renderNodeDom) =
    betweenSer marked parseSlice T lastIndex b := by
  unfold betweenSer
  split
  · split
    · rfl
    · rfl
  · rfl

theorem ser_after (marked : List Char → List Char)
    (parseSlice : List Char → List TipTapNode) (T : List Char) (lastIndex : Nat) :
    serializeList "div" ((convertLoop marked parseSlice T lastIndex []).map renderNodeDom) =
    afterSer marked parseSlice T lastIndex := by
  simp only [convertLoop]
  unfold afterSer
  split
  · split
    · rfl
    · rfl
  · rfl

theorem ser_para_opt (cond : Prop) [Decidable cond] :
    serializeList "div" (((if cond then [TipTapNode.paragraph] else []) :
      List TipTapNode).map renderNodeDom) = [] := by
  split
  · simp only [List.map_cons, List.map_nil]
    show serializeNode "div" (renderNodeDom TipTapNode.paragraph) ++
      serializeList "div" [] = []
    rw [serialize_para]
    rfl
  · rfl

theorem convertLoop_cons_eq (marked : List Char → List Char)
    (parseSlice : List Char → List TipTapNode) (T : List Char)
    (lastIndex : Nat) (b : MermaidBlock) (rest : List MermaidBlock) :
    convertLoop marked parseSlice T lastIndex (b :: rest) =
    ((if lastIndex < b.startIndex then
        (if !(jsTrim ((T.drop lastIndex).take (b.startIndex - lastIndex))).isEmpty then
          htmlPathNodes marked parseSlice ((T.drop lastIndex).take (b.startIndex - lastIndex))
        else []) else []) ++
      (TipTapNode.mermaidBlock b.diagramType "preview" "default" b.content ::
        (if rest ≠ [] ∨ b.endIndex < T.length then [TipTapNode.paragraph] else []))) ++
    convertLoop marked parseSlice T b.endIndex rest := rfl

theorem convertLoop_ser (marked : List Char → List Char)
    (parseSlice : List Char → List TipTapNode) (T : List Char) :
    ∀ (blocks : List MermaidBlock) (b : MermaidBlock) (lastIndex : Nat),
      serializeList "div"
        ((convertLoop marked parseSlice T lastIndex (b :: blocks)).map renderNodeDom) =
      betweenSer marked parseSlice T lastIndex b ++
        assemble (c1Pairs marked parseSlice T (b :: blocks))
  | [], b, lastIndex => by
    rw [convertLoop_cons_eq]
    simp only [List.map_append, serializeList_append, List.map_cons, serializeList]
    rw [ser_before marked parseSlice T lastIndex b, serialize_mermaid_node,
      ser_para_opt, ser_after]
    simp [c1Pairs, assemble]
  | b2 :: rest', b, lastIndex => by
    rw [convertLoop_cons_eq]
    simp only [List.map_append, serializeList_append, List.map_cons, serializeList]
    rw [ser_before marked parseSlice T lastIndex b, serialize_mermaid_node,
      serialize_para, convertLoop_ser marked parseSlice T rest' b2 b.endIndex]
    simp [c1Pairs, assemble]

theorem splitTicks_assembled :
    ∀ (prs : List (List Char × List Char)) (s0 : List Char),
      NoTicks s0 → s0.getLast? ≠ some tick →
      (∀ pr ∈ prs, NoTicks pr.1) →
      (∀ pr ∈ prs, NoTicks pr.2 ∧ pr.2.getLast? ≠ some tick) →
      splitTicks (s0 ++ assemble prs) = s0 :: c1Parts prs
  | [], s0, h1, _, _, _ => by
    simp only [assemble, List.append_nil, c1Parts]
    rw [splitTicks_eq_self s0 h1]
  | (S, g) :: rest, s0, h1, h2, hfst, hsnd => by
    have hSnt : NoTicks S := hfst (S, g) (by simp)
    obtain ⟨hgnt, hglast⟩ := hsnd (S, g) (by simp)
    have hshape : s0 ++ assemble ((S, g) :: rest) =
        s0 ++ (ticksL ++ (("mermaid\n".data ++ (S ++ ['\n'])) ++ (ticksL ++
          ("\n\n".data ++ (g ++ assemble rest))))) := by
      simp [assemble, fenceOf, List.append_assoc]
    rw [hshape]
    rw [← List.append_assoc s0 ticksL _]
    rw [splitTicks_append_nofence s0 _ h1 h2]
    have hfsp_nt : NoTicks ("mermaid\n".data ++ (S ++ ['\n'])) := by
      have hm : NoTicks ("mermaid\n".data) := (hasTicks_eq_false_iff _).mp (by decide)
      have hSn : NoTicks (S ++ ['\n']) :=
        noTicks_append hSnt (noTicks_short ['\n'] (by simp)) (Or.inr (by decide))
      exact noTicks_append hm hSn (Or.inl (by decide))
    have hfsp_last : ("mermaid\n".data ++ (S ++ ['\n'])).getLast? ≠ some tick := by
      rw [getLast?_append_right _ _ (by simp)]
      rw [getLast?_append_right _ _ (by simp)]
      decide
    rw [← List.append_assoc ("mermaid\n".data ++ (S ++ ['\n'])) ticksL _]
    rw [splitTicks_append_nofence _ _ hfsp_nt hfsp_last]
    have hg0_nt : NoTicks ("\n\n".data ++ g) :=
      noTicks_append ((hasTicks_eq_false_iff _).mp (by decide)) hgnt (Or.inl (by decide))
    have hg0_last : ("\n\n".data ++ g).getLast? ≠ some tick := by
      cases g with
      | nil =>
        simp
        decide
      | cons gc gt =>
        rw [getLast?_append_right _ _ (by simp)]
        exact hglast
    have hrec := splitTicks_assembled rest ("\n\n".data ++ g) hg0_nt hg0_last
      (fun pr hpr => hfst pr (by simp [hpr])) (fun pr hpr => hsnd pr (by simp [hpr]))
    rw [List.append_assoc] at hrec
    rw [hrec]
    simp [c1Parts]

theorem extract_c1Parts (L : Nat) :
    ∀ (prs : List (List Char × List Char)) (ps : List Nat),
      ps.length = (c1Parts prs).length →
      (∀ pr ∈ prs, jsTrim pr.1 = pr.1) →
      (∀ pr ∈ prs, isMermaidTagged ("\n\n".data ++ pr.2) = false) →
      (extractAux L (c1Parts prs) ps).map (fun b => b.content) =
        prs.map (fun pr => pr.1)
  | [], ps, _, _, _ => by simp [c1Parts, extractAux]
  | (S, g) :: rest, ps, hlen, htrim, hgap => by
    have hlen' : ps.length = (c1Parts rest).length + 2 := by
      simpa [c1Parts] using hlen
    match ps, hlen' with
    | q1 :: q2 :: ps', hlen' =>
      have hS : jsTrim S = S := htrim (S, g) (by simp)
      have hfence := isMermaidTagged_fence S hS
      have hcontent := mermaidContentOf_fence S hS
      have hgapS := hgap (S, g) (by simp)
      show (extractAux L (("mermaid\n".data ++ S ++ ['\n']) ::
        ("\n\n".data ++ g) :: c1Parts rest) (q1 :: q2 :: ps')).map (fun b => b.content) =
        S :: rest.map (fun pr => pr.1)
      simp only [extractAux, hfence, hgapS, if_true, Bool.false_eq_true, if_false,
        List.nil_append, List.map_cons, List.map_append, List.singleton_append]
      rw [hcontent]
      rw [extract_c1Parts L rest ps' (by simpa using hlen')
        (fun pr hpr => htrim pr (by simp [hpr]))
        (fun pr hpr => hgap pr (by simp [hpr]))]

/-- C1: round-trip law. For every Markdown text with detected diagram
segments, rendering the converter's node list to DOM (DiagramBlocks via
`MermaidBlock.renderHTML`) and serializing with the copy-path
`domToMarkdown`, then re-scanning the serialized Markdown, detects the same
number of diagram segments with contents equal to the originals; and the
serializer re-emits the exact case-sensitive marker line `mermaid` inside a
triple-backtick fence for every DiagramBlock node.  The external
standard-converter path is abstract; the hypotheses state that its
re-serialized prose spans contain no triple backtick, do not end in a
backtick, and do not start (after the fence's blank line) with a line that
is exactly `mermaid`. -/
theorem roundtrip_mermaid_contents (marked : List Char → List Char)
    (parseSlice : List Char → List TipTapNode) (T : List Char)
    (hstd : ∀ s : List Char,
      hasTicks (stdSer marked parseSlice s) = false ∧
      (stdSer marked parseSlice s).getLast? ≠ some tick ∧
      isMermaidTagged ("\n\n".data ++ stdSer marked parseSlice s) = false)
    (hne : extractMermaidBlocks T ≠ []) :
    ((extractMermaidBlocks (domToMarkdown
        ((convertMarkdownToTipTapNodes marked parseSlice T).map renderNodeDom))).map
          (fun b => b.content) =
      (extractMermaidBlocks T).map (fun b => b.content)) ∧
    ((extractMermaidBlocks (domToMarkdown
        ((convertMarkdownToTipTapNodes marked parseSlice T).map renderNodeDom))).length =
      (extractMermaidBlocks T).length) ∧
    (∀ dt vm th src, serializeNode "div"
      (renderNodeDom (TipTapNode.mermaidBlock dt vm th src)) = fenceOf src) := by
  rcases hblocks : extractMermaidBlocks T with _ | ⟨b1, bs⟩
  · exact absurd hblocks hne
  have hconv : convertMarkdownToTipTapNodes marked parseSlice T =
      convertLoop marked parseSlice T 0 (b1 :: bs) := by
    unfold convertMarkdownToTipTapNodes
    rw [hblocks]
    rfl
  have hM : domToMarkdown ((convertMarkdownToTipTapNodes marked parseSlice T).map
      renderNodeDom) =
      betweenSer marked parseSlice T 0 b1 ++
        assemble (c1Pairs marked parseSlice T (b1 :: bs)) := by
    rw [hconv]
    exact convertLoop_ser marked parseSlice T bs b1 0
  have hs0 : NoTicks (betweenSer marked parseSlice T 0 b1) ∧
      (betweenSer marked parseSlice T 0 b1).getLast? ≠ some tick := by
    unfold betweenSer
    split
    · split
      · obtain ⟨ha, hb, -⟩ := hstd _
        exact ⟨(hasTicks_eq_false_iff _).mp ha, hb⟩
      · exact ⟨noTicks_short [] (by simp), by simp⟩
    · exact ⟨noTicks_short [] (by simp), by simp⟩
  have hfst_nt : ∀ pr ∈ c1Pairs marked parseSlice T (b1 :: bs), NoTicks pr.1 := by
    intro pr hpr
    obtain ⟨b, hbmem, hbeq⟩ := c1Pairs_fst_mem marked parseSlice T (b1 :: bs) pr hpr
    rw [hbeq]
    exact (extract_content_props T b (by rw [hblocks]; exact hbmem)).1
  have hfst_trim : ∀ pr ∈ c1Pairs marked parseSlice T (b1 :: bs),
      jsTrim pr.1 = pr.1 := by
    intro pr hpr
    obtain ⟨b, hbmem, hbeq⟩ := c1Pairs_fst_mem marked parseSlice T (b1 :: bs) pr hpr
    rw [hbeq]
    exact (extract_content_props T b (by rw [hblocks]; exact hbmem)).2
  have hsnd : ∀ pr ∈ c1Pairs marked parseSlice T (b1 :: bs),
      NoTicks pr.2 ∧ pr.2.getLast? ≠ some tick := by
    intro pr hpr
    rcases c1Pairs_snd_cases marked parseSlice T (b1 :: bs) pr hpr with h0 | ⟨s, hs⟩
    · rw [h0]
      exact ⟨noTicks_short [] (by simp), by simp⟩
    · rw [hs]
      obtain ⟨ha, hb, -⟩ := hstd s
      exact ⟨(hasTicks_eq_false_iff _).mp ha, hb⟩
  have hsnd_tag : ∀ pr ∈ c1Pairs marked parseSlice T (b1 :: bs),
      isMermaidTagged ("\n\n".data ++ pr.2) = false := by
    intro pr hpr
    rcases c1Pairs_snd_cases marked parseSlice T (b1 :: bs) pr hpr with h0 | ⟨s, hs⟩
    · rw [h0]
      rw [List.append_nil]
      decide
    · rw [hs]
      exact (hstd s).2.2
  have hsplit := splitTicks_assembled (c1Pairs marked parseSlice T (b1 :: bs))
    (betweenSer marked parseSlice T 0 b1) hs0.1 hs0.2 hfst_nt hsnd
  have hlenpos := tickPos_length (betweenSer marked parseSlice T 0 b1 ++
    assemble (c1Pairs marked parseSlice T (b1 :: bs))) 0
  rw [hsplit] at hlenpos
  have hlen_eq : (tickPositions (betweenSer marked parseSlice T 0 b1 ++
      assemble (c1Pairs marked parseSlice T (b1 :: bs)))).length =
      (c1Parts (c1Pairs marked parseSlice T (b1 :: bs))).length := by
    unfold tickPositions
    simp only [List.length_cons] at hlenpos
    omega
  have hext : extractMermaidBlocks (betweenSer marked parseSlice T 0 b1 ++
      assemble (c1Pairs marked parseSlice T (b1 :: bs))) =
      extractAux (betweenSer marked parseSlice T 0 b1 ++
        assemble (c1Pairs marked parseSlice T (b1 :: bs))).length
        (c1Parts (c1Pairs marked parseSlice T (b1 :: bs)))
        (tickPositions (betweenSer marked parseSlice T 0 b1 ++
          assemble (c1Pairs marked parseSlice T (b1 :: bs)))) := by
    unfold extractMermaidBlocks
    rw [hsplit]
    simp only [List.drop_succ_cons, List.drop_zero]
  have hmain : (extractMermaidBlocks (domToMarkdown
      ((convertMarkdownToTipTapNodes marked parseSlice T).map renderNodeDom))).map
        (fun b => b.content) =
      (b1 :: bs).map (fun b => b.content) := by
    rw [hM, hext]
    rw [extract_c1Parts _ (c1Pairs marked parseSlice T (b1 :: bs)) _
      hlen_eq hfst_trim hsnd_tag]
    rw [c1Pairs_fst]
  refine ⟨hmain, ?_, ?_⟩
  · have := congrArg List.length hmain
    simpa using this
  · intro dt vm th src
    exact serialize_mermaid_node dt vm th src

theorem roundtrip_mermaid_contents_witness :
    (extractMermaidBlocks (domToMarkdown
      ((convertMarkdownToTipTapNodes (fun t => t) (fun _ => [])
        "Hi\n\n```mermaid\nA-->B\n```\n\nBye".data).map renderNodeDom))).map
      (fun b => b.content) =
    (extractMermaidBlocks "Hi\n\n```mermaid\nA-->B\n```\n\nBye".data).map
      (fun b => b.content) := by
  refine (roundtrip_mermaid_contents (fun t => t) (fun _ => []) _ ?_ (by decide)).1
  intro s
  refine ⟨rfl, ?_, ?_⟩
  · show ([] : List Char).getLast? ≠ some tick
    simp
  · show isMermaidTagged ("\n\n".data ++ ([] : List Char)) = false
    rw [List.append_nil]
    decide
